import Mathlib

/-!
Shallow embedding of the `bitvector` and `nibblevector` Python modules
(Programming Pearls bitmap exercises).

Python 2 semantics used throughout:
  * `a / b` and `a % b` on ints are floor division / floor modulus; for a
    positive divisor these coincide with Lean's Euclidean `/` and `%` on `Int`.
  * `bytearray` indexing accepts negative indices (`ba[i]` is `ba[len+i]`
    for `i < 0`) and raises `IndexError` when still out of bounds.
  * a `raise` aborts the method before any later statement runs.
Bytes are modelled as `Nat` values; `bytearray(n)` is `List.replicate n 0`.
Exceptions are modelled with `Except` (queries) or an explicit
state-and-outcome pair (the mutating `NibbleVector.__setitem__`).
-/

deriving instance DecidableEq for Except

/-- Exceptions the two modules can raise. `outOfRange` and `invalidValue`
are the two `ValueError`s of the source; `indexError` is the `IndexError`
a `bytearray` raises on an out-of-bounds byte access; `stopIteration`
ends an iteration. -/
inductive PyError where
  | outOfRange
  | invalidValue
  | indexError
  | stopIteration
deriving DecidableEq, Repr

/-- Python sequence index resolution: a negative index counts from the end;
the result must land in `[0, len)`. -/
def pyIdx (len : Nat) (i : Int) : Option Nat :=
  let j := if i < 0 then (len : Int) + i else i
  if 0 ≤ j ∧ j < (len : Int) then some j.toNat else none

/-- `ba[i]` on a Python bytearray. -/
def byteGet (ba : List Nat) (i : Int) : Option Nat :=
  (pyIdx ba.length i).bind fun j => ba[j]?

/-- `ba[i] = v` on a Python bytearray. -/
def byteSet (ba : List Nat) (i : Int) (v : Nat) : Option (List Nat) :=
  (pyIdx ba.length i).map fun j => ba.set j v

/-- State of a `BitVector` object: the bound `maxval` and the backing
bytearray `ba` (src/bitvector.py, `__init__`, lines 107-108). -/
structure BitVector where
  maxval : Int
  ba : List Nat
deriving DecidableEq, Repr

/-- `BitVector(maxval)`: `self.maxval = maxval; self.ba = bytearray(maxval/8 + 1)`
(src/bitvector.py lines 107-108). -/
def BitVector.init (maxval : Int) : BitVector :=
  { maxval := maxval, ba := List.replicate (maxval / 8 + 1).toNat 0 }

/-- `BitVector.set` (src/bitvector.py lines 192-196): range check, then
`ba[num/8] |= 1 << (7 - num%8)`. -/
def BitVector.set (bv : BitVector) (num : Int) : Except PyError BitVector :=
  if num ≥ bv.maxval then .error .outOfRange
  else
    let byte_pos : Int := num / 8
    let bit_pos : Int := num % 8
    match byteGet bv.ba byte_pos with
    | none => .error .indexError
    | some b =>
      match byteSet bv.ba byte_pos (b ||| (1 <<< (7 - bit_pos).toNat)) with
      | none => .error .indexError
      | some ba2 => .ok { maxval := bv.maxval, ba := ba2 }

/-- `BitVector.contains` (src/bitvector.py lines 254-261): range check, then
`raw = 1 << (7 - num%8); masked = raw ^ 255; compared = masked | ba[num/8];
return 255 == compared`. -/
def BitVector.contains (bv : BitVector) (num : Int) : Except PyError Bool :=
  if num ≥ bv.maxval then .error .outOfRange
  else
    let byte_pos : Int := num / 8
    let bit_pos : Int := num % 8
    match byteGet bv.ba byte_pos with
    | none => .error .indexError
    | some b =>
      let raw := 1 <<< (7 - bit_pos).toNat
      let masked := raw ^^^ 255
      let compared := masked ||| b
      .ok (255 == compared)

/-- Truth value of `contains` when it does not raise; `False` on an
exception (used only where `contains` provably does not raise). -/
def BitVector.containsB (bv : BitVector) (num : Int) : Bool :=
  match bv.contains num with
  | .ok b => b
  | .error _ => false

/-- `BitVector.convert_to_list` (src/bitvector.py lines 284-285):
`[i for i in range(maxval) if contains(i)]`. -/
def BitVector.convert_to_list (bv : BitVector) : List Int :=
  ((List.range bv.maxval.toNat).map (fun i : Nat => (i : Int))).filter bv.containsB

/-- Mask/flip/compare computation of `contains` on one stored byte `b` at
bit position `p` (src/bitvector.py lines 258-261). -/
def maskFlipCompare (b p : Nat) : Bool :=
  255 == (((1 <<< (7 - p)) ^^^ 255) ||| b)

/-- Direct bit test the spec declares equivalent: `(b >> (7-p)) & 1 == 1`. -/
def directBitTest (b p : Nat) : Bool :=
  (b >>> (7 - p)) &&& 1 == 1

/-- State of a `NibbleVector` object: logical `size`, backing bytearray
`ba`, and the shared iteration cursor `index`
(src/nibblevector.py, `__init__`, lines 41-44). -/
structure NibbleVector where
  size : Int
  ba : List Nat
  index : Int
deriving DecidableEq, Repr

/-- `NibbleVector(size)`: `self.size = size; self.ba = bytearray((size+1)/2);
self.index = 0` (src/nibblevector.py lines 41-44). -/
def NibbleVector.init (size : Int) : NibbleVector :=
  { size := size, ba := List.replicate ((size + 1) / 2).toNat 0, index := 0 }

/-- Core nibble read of `__getitem__` for a normalized (non-negative) key
(src/nibblevector.py lines 81-86): `byte_pos = key/2; nib_pos = key%2;
mask = 15 << 4*(1-nib_pos); return (ba[byte_pos] & mask) >> 4*(1-nib_pos)`. -/
def nibGet (ba : List Nat) (key : Int) : Except PyError Nat :=
  let byte_pos : Int := key / 2
  let nib_pos : Int := key % 2
  match byteGet ba byte_pos with
  | none => .error .indexError
  | some b =>
    let mask := 15 <<< (4 * (1 - nib_pos)).toNat
    let masked_result := b &&& mask
    .ok (masked_result >>> (4 * (1 - nib_pos)).toNat)

/-- `NibbleVector.__getitem__` (src/nibblevector.py lines 77-86): range
check, then negative keys recurse on `size + key`, which passes the same
range check, so the recursion is flattened to one normalization step. -/
def NibbleVector.getitem (nv : NibbleVector) (key : Int) : Except PyError Nat :=
  if key ≥ nv.size ∨ key < -nv.size then .error .outOfRange
  else if key < 0 then nibGet nv.ba (nv.size + key)
  else nibGet nv.ba key

/-- New value of the target byte in `__setitem__`
(src/nibblevector.py lines 118-122): `mask = 15 << 4*nib_pos;
result = (ba[byte_pos] & mask) + (value << 4*(1-nib_pos))`. -/
def nibSetByte (b : Nat) (key value : Int) : Nat :=
  let nib_pos : Int := key % 2
  let mask := 15 <<< (4 * nib_pos).toNat
  let masked_result := b &&& mask
  masked_result + (value.toNat <<< (4 * (1 - nib_pos)).toNat)

/-- `NibbleVector.__setitem__` (src/nibblevector.py lines 111-123), with
the mutable receiver threaded explicitly: the result is the state of the
object after the call together with its outcome (`.ok ()` or the raised
exception). Both `raise` statements run before any mutation, so they
return the receiver unchanged; the negative-key recursion (line 116)
happens after both checks and is flattened to one normalization step. -/
def NibbleVector.setitem (nv : NibbleVector) (key value : Int) :
    NibbleVector × Except PyError Unit :=
  if key ≥ nv.size ∨ key < -nv.size then (nv, .error .outOfRange)
  else if value < 0 ∨ value ≥ 16 then (nv, .error .invalidValue)
  else
    let k := if key < 0 then nv.size + key else key
    match byteGet nv.ba (k / 2) with
    | none => (nv, .error .indexError)
    | some b =>
      match byteSet nv.ba (k / 2) (nibSetByte b k value) with
      | none => (nv, .error .indexError)
      | some ba2 => ({ nv with ba := ba2 }, .ok ())

/-- `NibbleVector.next` (src/nibblevector.py lines 139-144): raise
`StopIteration` when the shared cursor reaches `size`, else return the
item at the cursor and advance it. -/
def NibbleVector.next (nv : NibbleVector) : Except PyError (Nat × NibbleVector) :=
  if nv.index == nv.size then .error .stopIteration
  else
    match nv.getitem nv.index with
    | .error e => .error e
    | .ok v => .ok (v, { nv with index := nv.index + 1 })

/-- Python `for` loop over the object: `__iter__` returns `self`
(src/nibblevector.py line 137), so a traversal repeatedly calls `next` on
the object itself, collecting yielded values until an exception, and
hands back the object state it left behind. `fuel` bounds the number of
`next` calls; any fuel past the first exception is inert. -/
def NibbleVector.iterList : NibbleVector → Nat → List Nat × NibbleVector
  | nv, 0 => ([], nv)
  | nv, fuel + 1 =>
    match nv.next with
    | .error _ => ([], nv)
    | .ok (v, nv2) =>
      let r := nv2.iterList fuel
      (v :: r.1, r.2)

/-- Well-formed `BitVector` state: the backing buffer has the byte count
`__init__` allocates. -/
def BitVector.WF (bv : BitVector) : Prop :=
  bv.ba.length = (bv.maxval / 8 + 1).toNat

/-- Well-formed `NibbleVector` state: the buffer has the byte count
`__init__` allocates and every byte is a byte (`bytearray` keeps its
entries in `[0, 256)`). -/
def NibbleVector.WF (nv : NibbleVector) : Prop :=
  nv.ba.length = ((nv.size + 1) / 2).toNat ∧ ∀ b ∈ nv.ba, b < 256

/-- Fold a list of `(key, value)` assignments over a `NibbleVector`; a
call that raises leaves the state as it was. -/
def NibbleVector.applySets (nv : NibbleVector) (ops : List (Int × Int)) : NibbleVector :=
  ops.foldl (fun s op => (s.setitem op.1 op.2).1) nv

/-- Fold `set` over a `BitVector`, ignoring calls that raise. -/
def BitVector.setAll (bv : BitVector) (xs : List Int) : BitVector :=
  xs.foldl (fun s x => match s.set x with | .ok s2 => s2 | .error _ => s) bv

/-- NibbleVector of length 5 holding values 1..5 at indices 0..4
(the doctest input of `__iter__`, src/nibblevector.py lines 128-135). -/
def nvFive : NibbleVector :=
  (NibbleVector.init 5).applySets [(0, 1), (1, 2), (2, 3), (3, 4), (4, 5)]

/-- BitVector of capacity 16 after setting 0, 3, 6, 11, 2, 8
(the doctest input of `convert_to_list`, src/bitvector.py lines 279-282). -/
def bvSixteen : BitVector :=
  (BitVector.init 16).setAll [0, 3, 6, 11, 2, 8]

lemma pyIdx_of_nonneg (len : Nat) (i : Int) (h0 : 0 ≤ i) (h1 : i < (len : Int)) :
    pyIdx len i = some i.toNat := by
  have hneg : ¬ i < 0 := by omega
  simp only [pyIdx, if_neg hneg]
  rw [if_pos (by omega)]

lemma byteGet_of_nonneg (ba : List Nat) (i : Int) (h0 : 0 ≤ i)
    (h1 : i < (ba.length : Int)) : byteGet ba i = ba[i.toNat]? := by
  simp only [byteGet, pyIdx_of_nonneg ba.length i h0 h1, Option.some_bind]

lemma byteGet_some (ba : List Nat) (i : Int) (h0 : 0 ≤ i)
    (h1 : i < (ba.length : Int)) (hn : i.toNat < ba.length) :
    byteGet ba i = some (ba.get ⟨i.toNat, hn⟩) := by
  rw [byteGet_of_nonneg ba i h0 h1, List.getElem?_eq_getElem hn]
  rfl

lemma byteSet_of_nonneg (ba : List Nat) (i : Int) (h0 : 0 ≤ i)
    (h1 : i < (ba.length : Int)) (v : Nat) :
    byteSet ba i v = some (ba.set i.toNat v) := by
  simp only [byteSet, pyIdx_of_nonneg ba.length i h0 h1]
  rfl

set_option maxRecDepth 4000 in
/-- Claim C1 (code bug witnessed on the source): for the NibbleVector of
length 5 holding 1..5, a first full traversal yields 1,2,3,4,5, but a
second traversal of the same container yields the empty sequence, because
`__iter__` returns `self` without resetting the shared cursor, contrary
to the module's own doctest (src/nibblevector.py lines 133-135) and to
the claimed restartability. -/
theorem nibble_iter_second_traversal_empty :
    (nvFive.iterList 6).1 = [1, 2, 3, 4, 5] ∧
    ((nvFive.iterList 6).2.iterList 6).1 = ([] : List Nat) := by decide

set_option maxRecDepth 4000 in
/-- Claim C2 (counterexample): on `BitVector(10)`, the negative element
`-1` is accepted by both `set` and `contains` — neither raises. `set(-1)`
completes and flips a bit in the last byte through Python's negative
byte indexing, and `contains(-1)` returns `False` on the fresh vector. -/
theorem bitvector_negative_element_no_raise :
    (BitVector.init 10).set (-1) = .ok { maxval := 10, ba := [0, 1] } ∧
    (BitVector.init 10).contains (-1) = .ok false := by decide

set_option maxRecDepth 4000 in
/-- Claim C3: `BitVector(10).set(-9)` raises nothing; it lands on byte
index `-2`, which negative indexing aliases to byte 0, so afterwards
`contains(7)` reports `True` even though on the fresh vector
`contains(7)` is `False` and 7 was never set. -/
theorem bitvector_negative_set_aliases_element :
    ((BitVector.init 10).set (-9)).map (fun bv => bv.contains 7) =
      .ok (.ok true) ∧
    (BitVector.init 10).contains 7 = .ok false := by decide

set_option maxRecDepth 100000 in
lemma maskFlipCompare_spec : ∀ b < 256, ∀ p < 8,
    (maskFlipCompare b p = decide (b &&& (1 <<< (7 - p)) ≠ 0)) ∧
    (maskFlipCompare b p = directBitTest b p) := by decide

lemma bitMaskAux : ∀ k < 8,
    ((255 == (((1 <<< k) ^^^ 255) ||| 0)) = false) ∧
    ((255 == (((1 <<< k) ^^^ 255) ||| (1 <<< k))) = true) ∧
    ((1 <<< k) ||| (1 <<< k)) = (1 <<< k) := by decide

set_option maxRecDepth 1000000 in
lemma nibbleByteAux : ∀ b < 256, ∀ v < 16,
    ((((b &&& 15) + (v <<< 4)) &&& (15 <<< 4)) >>> 4 = v) ∧
    (((b &&& 15) + (v <<< 4)) &&& 15 = b &&& 15) ∧
    ((((b &&& (15 <<< 4)) + v) &&& 15) = v) ∧
    ((((b &&& (15 <<< 4)) + v) &&& (15 <<< 4)) >>> 4 = (b &&& (15 <<< 4)) >>> 4) ∧
    ((b &&& 15) + (v <<< 4) < 256) ∧
    ((b &&& (15 <<< 4)) + v < 256) := by decide

/-- Claim C4: the mask/flip/compare idiom of `contains` agrees with the
direct mask test and the shift test on every byte `b < 256` and bit
position `p < 8`, and `contains` returns exactly the idiom's verdict on
the stored byte. -/
theorem mask_flip_compare_equiv (b p : Nat) (hb : b < 256) (hp : p < 8) :
    (maskFlipCompare b p = true ↔ b &&& (1 <<< (7 - p)) ≠ 0) ∧
    maskFlipCompare b p = directBitTest b p ∧
    ∀ (bv : BitVector) (e : Int), byteGet bv.ba (e / 8) = some b →
      e < bv.maxval → (e % 8).toNat = p →
      bv.contains e = .ok (maskFlipCompare b p) := by
  obtain ⟨h1, h2⟩ := maskFlipCompare_spec b hb p hp
  refine ⟨?_, h2, ?_⟩
  · rw [h1]
    exact decide_eq_true_iff
  · intro bv e hbyte he hp8
    unfold BitVector.contains
    rw [if_neg (by omega)]
    simp only [hbyte]
    have hsh : ((7 : Int) - e % 8).toNat = 7 - p := by omega
    rw [hsh]
    rfl

/-- Witness for `mask_flip_compare_equiv` at byte 215, bit position 0. -/
theorem mask_flip_compare_equiv_witness :
    maskFlipCompare 215 0 = directBitTest 215 0 :=
  (mask_flip_compare_equiv 215 0 (by decide) (by decide)).2.1

lemma bitvector_byte_bounds (bv : BitVector) (hwf : bv.WF) (e : Int)
    (h0 : 0 ≤ e) (h1 : e < bv.maxval) :
    0 ≤ e / 8 ∧ e / 8 < (bv.ba.length : Int) := by
  unfold BitVector.WF at hwf
  omega

/-- Claim C2 (amended): `set(e)` and `contains(e)` raise `OutOfRange`
exactly when `e ≥ maxval`; on a well-formed state they raise nothing at
all for `0 ≤ e < maxval`. A negative `e` is not range-checked: the
methods proceed into the buffer through Python's negative byte indexing
instead of raising `OutOfRange`. -/
theorem bitvector_out_of_range_iff (bv : BitVector) (e : Int) :
    (bv.set e = .error .outOfRange ↔ bv.maxval ≤ e) ∧
    (bv.contains e = .error .outOfRange ↔ bv.maxval ≤ e) ∧
    (bv.WF → 0 ≤ e → e < bv.maxval →
      (∃ bv2, bv.set e = .ok bv2) ∧ (∃ b, bv.contains e = .ok b)) := by
  refine ⟨?_, ?_, ?_⟩
  · unfold BitVector.set
    split
    case isTrue h => simpa using h
    case isFalse h =>
      refine iff_of_false ?_ (by omega)
      rcases hbg : byteGet bv.ba (e / 8) with _ | b <;> simp only [hbg]
      · simp
      · rcases hbs : byteSet bv.ba (e / 8) (b ||| (1 <<< ((7 : Int) - e % 8).toNat))
          with _ | ba2 <;> simp [hbs]
  · unfold BitVector.contains
    split
    case isTrue h => simpa using h
    case isFalse h =>
      refine iff_of_false ?_ (by omega)
      rcases hbg : byteGet bv.ba (e / 8) with _ | b <;> simp [hbg]
  · intro hwf h0 h1
    obtain ⟨hd0, hd1⟩ := bitvector_byte_bounds bv hwf e h0 h1
    have hn : (e / 8).toNat < bv.ba.length := by omega
    have hbg := byteGet_some bv.ba (e / 8) hd0 hd1 hn
    constructor
    · have hbs := byteSet_of_nonneg bv.ba (e / 8) hd0 hd1
        ((bv.ba.get ⟨(e / 8).toNat, hn⟩) ||| (1 <<< ((7 : Int) - e % 8).toNat))
      refine ⟨{ maxval := bv.maxval,
                ba := bv.ba.set (e / 8).toNat
                  ((bv.ba.get ⟨(e / 8).toNat, hn⟩) |||
                    (1 <<< ((7 : Int) - e % 8).toNat)) }, ?_⟩
      unfold BitVector.set
      rw [if_neg (by omega)]
      simp only [hbg, hbs]
    · refine ⟨255 == ((1 <<< ((7 : Int) - e % 8).toNat) ^^^ 255) |||
        (bv.ba.get ⟨(e / 8).toNat, hn⟩), ?_⟩
      unfold BitVector.contains
      rw [if_neg (by omega)]
      simp only [hbg]

/-- Witness for `bitvector_out_of_range_iff` on `BitVector(10)` at
element 3: no `OutOfRange`, and both operations succeed. -/
theorem bitvector_out_of_range_iff_witness :
    ¬ ((BitVector.init 10).set 3 = .error .outOfRange) ∧
    (∃ bv2, (BitVector.init 10).set 3 = .ok bv2) ∧
    (∃ b, (BitVector.init 10).contains 3 = .ok b) := by
  have h := bitvector_out_of_range_iff (BitVector.init 10) 3
  have hs := h.2.2 (by rfl) (by decide) (by decide)
  exact ⟨fun hc => absurd (h.1.mp hc) (by decide), hs.1, hs.2⟩

lemma length_init_ba (c : Int) :
    ((BitVector.init c).ba.length : Int) = (c / 8 + 1).toNat := by
  simp [BitVector.init]

/-- Claim C5: on a freshly constructed BitVector of positive capacity,
every in-range element is initially absent; after `set(e)` it is present;
and a second `set(e)` returns the very same state (idempotence). -/
theorem bitvector_fresh_set_contains (c e : Int)
    (hc : 0 < c) (h0 : 0 ≤ e) (he : e < c) :
    (BitVector.init c).contains e = .ok false ∧
    ∃ bv2, (BitVector.init c).set e = .ok bv2 ∧
      bv2.contains e = .ok true ∧ bv2.set e = .ok bv2 := by
  have hmax : (BitVector.init c).maxval = c := rfl
  have hk : ((7 : Int) - e % 8).toNat < 8 := by omega
  obtain ⟨ha0, ha1, ha2⟩ := bitMaskAux ((7 : Int) - e % 8).toNat hk
  have hlen : ((BitVector.init c).ba.length : Int) = (c / 8 + 1).toNat :=
    length_init_ba c
  have hd0 : 0 ≤ e / 8 := by omega
  have hd1 : e / 8 < ((BitVector.init c).ba.length : Int) := by omega
  have hn : (e / 8).toNat < (BitVector.init c).ba.length := by omega
  have hbg0 : byteGet (BitVector.init c).ba (e / 8) = some 0 := by
    rw [byteGet_of_nonneg _ _ hd0 hd1]
    show (List.replicate (c / 8 + 1).toNat 0)[(e / 8).toNat]? = some 0
    rw [List.getElem?_replicate, if_pos (by omega)]
  have hbs : byteSet (BitVector.init c).ba (e / 8)
      (0 ||| (1 <<< ((7 : Int) - e % 8).toNat)) =
      some ((BitVector.init c).ba.set (e / 8).toNat
        (0 ||| (1 <<< ((7 : Int) - e % 8).toNat))) :=
    byteSet_of_nonneg _ _ hd0 hd1 _
  rw [Nat.zero_or] at hbs
  refine ⟨?_, ?_⟩
  · unfold BitVector.contains
    rw [if_neg (by omega)]
    simp only [hbg0]
    rw [ha0]
  · refine ⟨BitVector.mk c
      ((BitVector.init c).ba.set (e / 8).toNat
        (1 <<< ((7 : Int) - e % 8).toNat)), ?_, ?_, ?_⟩
    · unfold BitVector.set
      rw [if_neg (by omega)]
      simp only [hbg0, Nat.zero_or, hbs]
      rfl
    · have hbg2 : byteGet
          ((BitVector.init c).ba.set (e / 8).toNat
            (1 <<< ((7 : Int) - e % 8).toNat)) (e / 8) =
          some (1 <<< ((7 : Int) - e % 8).toNat) := by
        rw [byteGet_of_nonneg _ _ hd0 (by rw [List.length_set]; omega)]
        rw [List.getElem?_set_self hn]
      unfold BitVector.contains
      rw [if_neg (show ¬ e ≥ c by omega)]
      simp only [hbg2]
      rw [ha1]
    · have hbg2 : byteGet
          ((BitVector.init c).ba.set (e / 8).toNat
            (1 <<< ((7 : Int) - e % 8).toNat)) (e / 8) =
          some (1 <<< ((7 : Int) - e % 8).toNat) := by
        rw [byteGet_of_nonneg _ _ hd0 (by rw [List.length_set]; omega)]
        rw [List.getElem?_set_self hn]
      unfold BitVector.set
      rw [if_neg (show ¬ e ≥ c by omega)]
      simp only [hbg2, ha2]
      have hbs2 : byteSet
          ((BitVector.init c).ba.set (e / 8).toNat
            (1 <<< ((7 : Int) - e % 8).toNat)) (e / 8)
          (1 <<< ((7 : Int) - e % 8).toNat) =
          some ((BitVector.init c).ba.set (e / 8).toNat
            (1 <<< ((7 : Int) - e % 8).toNat)) := by
        rw [byteSet_of_nonneg _ _ hd0 (by rw [List.length_set]; omega) _]
        rw [List.set_set]
      simp only [hbs2]

/-- Witness for `bitvector_fresh_set_contains`: the end-to-end scenario
`BitVector(20)`, element 15. -/
theorem bitvector_fresh_set_contains_witness :
    (BitVector.init 20).contains 15 = .ok false ∧
    ∃ bv2, (BitVector.init 20).set 15 = .ok bv2 ∧
      bv2.contains 15 = .ok true ∧ bv2.set 15 = .ok bv2 :=
  bitvector_fresh_set_contains 20 15 (by decide) (by decide) (by decide)

lemma pyIdx_some_lt (len : Nat) (i : Int) (j : Nat) (h : pyIdx len i = some j) :
    j < len := by
  simp only [pyIdx] at h
  split at h <;> split at h <;>
    first
      | (rw [Option.some.injEq] at h; omega)
      | exact Option.noConfusion h

lemma byteSet_some_inv (ba : List Nat) (i : Int) (v : Nat) (ba2 : List Nat)
    (h : byteSet ba i v = some ba2) : ∃ j, j < ba.length ∧ ba2 = ba.set j v := by
  unfold byteSet at h
  rcases hpy : pyIdx ba.length i with _ | j
  · rw [hpy] at h
    exact Option.noConfusion h
  · rw [hpy] at h
    rw [Option.map_some', Option.some.injEq] at h
    exact ⟨j, pyIdx_some_lt ba.length i j hpy, h.symm⟩

lemma byteGet_mem (ba : List Nat) (i : Int) (b : Nat) (h : byteGet ba i = some b) :
    b ∈ ba := by
  unfold byteGet at h
  rcases hpy : pyIdx ba.length i with _ | j
  · rw [hpy] at h
    exact Option.noConfusion h
  · rw [hpy, Option.some_bind] at h
    exact List.getElem?_mem h

lemma getitem_pos (nv : NibbleVector) (k : Int) (h0 : 0 ≤ k) (h1 : k < nv.size) :
    nv.getitem k = nibGet nv.ba k := by
  unfold NibbleVector.getitem
  rw [if_neg (by omega), if_neg (by omega)]

lemma nibGet_even (ba : List Nat) (k : Int) (b : Nat)
    (hb : byteGet ba (k / 2) = some b) (hpar : k % 2 = 0) :
    nibGet ba k = .ok ((b &&& (15 <<< 4)) >>> 4) := by
  unfold nibGet
  simp only [hb, hpar]
  rfl

lemma nibGet_odd (ba : List Nat) (k : Int) (b : Nat)
    (hb : byteGet ba (k / 2) = some b) (hpar : k % 2 = 1) :
    nibGet ba k = .ok (b &&& 15) := by
  unfold nibGet
  simp only [hb, hpar]
  rfl

lemma nibSetByte_even (b : Nat) (k v : Int) (hpar : k % 2 = 0) :
    nibSetByte b k v = (b &&& 15) + (v.toNat <<< 4) := by
  unfold nibSetByte
  rw [hpar]
  rfl

lemma nibSetByte_odd (b : Nat) (k v : Int) (hpar : k % 2 = 1) :
    nibSetByte b k v = (b &&& (15 <<< 4)) + v.toNat := by
  unfold nibSetByte
  rw [hpar]
  rfl

set_option maxRecDepth 100000 in
lemma nibExtractAux : ∀ b < 256,
    ((b &&& (15 <<< 4)) >>> 4 < 16) ∧ (b &&& 15 < 16) := by decide

lemma setitem_state_or_ok (nv : NibbleVector) (k w : Int) :
    (nv.setitem k w).1 = nv ∨ (nv.setitem k w).2 = .ok () := by
  unfold NibbleVector.setitem
  by_cases h1 : k ≥ nv.size ∨ k < -nv.size
  · rw [if_pos h1]
    exact Or.inl rfl
  · rw [if_neg h1]
    by_cases h2 : w < 0 ∨ w ≥ 16
    · rw [if_pos h2]
      exact Or.inl rfl
    · rw [if_neg h2]
      rcases hbg : byteGet nv.ba ((if k < 0 then nv.size + k else k) / 2) with _ | b
      · simp only [hbg]
        exact Or.inl trivial
      · simp only [hbg]
        rcases hbs : byteSet nv.ba ((if k < 0 then nv.size + k else k) / 2)
            (nibSetByte b (if k < 0 then nv.size + k else k) w) with _ | ba2
        · simp only [hbs]
          exact Or.inl trivial
        · simp only [hbs]
          exact Or.inr trivial

lemma setitem_WF (nv : NibbleVector) (hwf : nv.WF) (k w : Int) :
    ((nv.setitem k w).1).WF ∧ ((nv.setitem k w).1).size = nv.size := by
  unfold NibbleVector.setitem
  by_cases h1 : k ≥ nv.size ∨ k < -nv.size
  · rw [if_pos h1]
    exact ⟨hwf, rfl⟩
  · rw [if_neg h1]
    by_cases h2 : w < 0 ∨ w ≥ 16
    · rw [if_pos h2]
      exact ⟨hwf, rfl⟩
    · rw [if_neg h2]
      rcases hbg : byteGet nv.ba ((if k < 0 then nv.size + k else k) / 2) with _ | b
      · simp only [hbg]
        exact ⟨hwf, trivial⟩
      · simp only [hbg]
        rcases hbs : byteSet nv.ba ((if k < 0 then nv.size + k else k) / 2)
            (nibSetByte b (if k < 0 then nv.size + k else k) w) with _ | ba2
        · simp only [hbs]
          exact ⟨hwf, trivial⟩
        · simp only [hbs]
          obtain ⟨j, hj, rfl⟩ := byteSet_some_inv _ _ _ _ hbs
          refine ⟨⟨?_, ?_⟩, trivial⟩
          · simp only [List.length_set]
            exact hwf.1
          · intro x hx
            rcases List.mem_or_eq_of_mem_set hx with hx' | rfl
            · exact hwf.2 x hx'
            · have hb256 : b < 256 := hwf.2 b (byteGet_mem _ _ _ hbg)
              have hw : w.toNat < 16 := by omega
              have haux := nibbleByteAux b hb256 w.toNat hw
              rcases Int.emod_two_eq (if k < 0 then nv.size + k else k) with hp | hp
              · rw [nibSetByte_even _ _ _ hp]
                exact haux.2.2.2.2.1
              · rw [nibSetByte_odd _ _ _ hp]
                exact haux.2.2.2.2.2

lemma init_WF (n : Int) : (NibbleVector.init n).WF := by
  constructor
  · simp [NibbleVector.init]
  · intro b hb
    simp only [NibbleVector.init, List.mem_replicate] at hb
    omega

lemma applySets_WF (nv : NibbleVector) (hwf : nv.WF) (ops : List (Int × Int)) :
    ((nv.applySets ops).WF) ∧ (nv.applySets ops).size = nv.size := by
  induction ops generalizing nv with
  | nil => exact ⟨hwf, rfl⟩
  | cons op rest ih =>
    have h := setitem_WF nv hwf op.1 op.2
    have h2 := ih _ h.1
    simp only [NibbleVector.applySets, List.foldl_cons] at h2 ⊢
    exact ⟨h2.1, h2.2.trans h.2⟩

lemma getitem_lt16 (nv : NibbleVector) (hwf : nv.WF) (i : Int)
    (h0 : 0 ≤ i) (hi : i < nv.size) :
    ∃ v, nv.getitem i = .ok v ∧ v < 16 := by
  obtain ⟨hlen, hbytes⟩ := hwf
  have hd0 : 0 ≤ i / 2 := by omega
  have hd1 : i / 2 < (nv.ba.length : Int) := by omega
  have hn : (i / 2).toNat < nv.ba.length := by omega
  have hbg := byteGet_some nv.ba (i / 2) hd0 hd1 hn
  have hb256 : nv.ba.get ⟨(i / 2).toNat, hn⟩ < 256 :=
    hbytes _ (byteGet_mem _ _ _ hbg)
  have haux := nibExtractAux _ hb256
  rw [getitem_pos nv i h0 hi]
  rcases Int.emod_two_eq i with hp | hp
  · exact ⟨_, nibGet_even _ _ _ hbg hp, haux.1⟩
  · exact ⟨_, nibGet_odd _ _ _ hbg hp, haux.2⟩

lemma getitem_init_zero (n : Int) (i : Int) (h0 : 0 ≤ i) (hi : i < n) :
    (NibbleVector.init n).getitem i = .ok 0 := by
  have hlen : ((NibbleVector.init n).ba.length : Int) = ((n + 1) / 2).toNat := by
    simp [NibbleVector.init]
  have hd0 : 0 ≤ i / 2 := by omega
  have hd1 : i / 2 < ((NibbleVector.init n).ba.length : Int) := by omega
  have hbg : byteGet (NibbleVector.init n).ba (i / 2) = some 0 := by
    rw [byteGet_of_nonneg _ _ hd0 hd1]
    show (List.replicate ((n + 1) / 2).toNat 0)[(i / 2).toNat]? = some 0
    rw [List.getElem?_replicate, if_pos (by omega)]
  rw [getitem_pos _ _ h0 (show i < (NibbleVector.init n).size from hi)]
  rcases Int.emod_two_eq i with hp | hp
  · rw [nibGet_even _ _ _ hbg hp]
    decide
  · rw [nibGet_odd _ _ _ hbg hp]
    decide

lemma byteGet_some_bound (ba : List Nat) (i : Int) (b : Nat) (h0 : 0 ≤ i)
    (h : byteGet ba i = some b) : i < (ba.length : Int) := by
  unfold byteGet at h
  rcases hpy : pyIdx ba.length i with _ | j
  · rw [hpy] at h
    exact Option.noConfusion h
  · simp only [pyIdx] at hpy
    split at hpy <;> split at hpy <;>
      first
        | omega
        | exact Option.noConfusion hpy

lemma setitem_ok_eq (nv : NibbleVector) (k v : Int) (hk0 : 0 ≤ k) (hk : k < nv.size)
    (hv0 : 0 ≤ v) (hv : v < 16) (b : Nat) (hbg : byteGet nv.ba (k / 2) = some b) :
    nv.setitem k v =
      ({ nv with ba := nv.ba.set (k / 2).toNat (nibSetByte b k v) }, .ok ()) := by
  have hd0 : 0 ≤ k / 2 := by omega
  have hd1 : k / 2 < (nv.ba.length : Int) := byteGet_some_bound _ _ _ hd0 hbg
  unfold NibbleVector.setitem
  rw [if_neg (by omega), if_neg (by omega), if_neg (show ¬ k < 0 by omega)]
  simp only [hbg, byteSet_of_nonneg nv.ba (k / 2) hd0 hd1]

/-- Claim C6: on a well-formed NibbleVector, `set(i, v)` with an in-range
index and nibble value succeeds, stores `v` at position `i`, and leaves
every other valid position — including the sibling nibble sharing `i`'s
byte — unchanged. -/
theorem nibble_set_frame (nv : NibbleVector) (hwf : nv.WF) (i v : Int)
    (hi0 : 0 ≤ i) (hi : i < nv.size) (hv0 : 0 ≤ v) (hv : v < 16) :
    ∃ nv2, nv.setitem i v = (nv2, .ok ()) ∧
      nv2.getitem i = .ok v.toNat ∧
      ∀ j, 0 ≤ j → j < nv.size → j ≠ i → nv2.getitem j = nv.getitem j := by
  have hlen := hwf.1
  have hbytes := hwf.2
  have hd0 : 0 ≤ i / 2 := by omega
  have hd1 : i / 2 < (nv.ba.length : Int) := by omega
  have hn : (i / 2).toNat < nv.ba.length := by omega
  have hbg := byteGet_some nv.ba (i / 2) hd0 hd1 hn
  have hb256 : nv.ba.get ⟨(i / 2).toNat, hn⟩ < 256 :=
    hbytes _ (byteGet_mem _ _ _ hbg)
  have hvn : v.toNat < 16 := by omega
  have haux := nibbleByteAux _ hb256 v.toNat hvn
  have hset := setitem_ok_eq nv i v hi0 hi hv0 hv _ hbg
  refine ⟨_, hset, ?_, ?_⟩
  · have hbg2 : byteGet
        (nv.ba.set (i / 2).toNat (nibSetByte (nv.ba.get ⟨(i / 2).toNat, hn⟩) i v))
        (i / 2) =
        some (nibSetByte (nv.ba.get ⟨(i / 2).toNat, hn⟩) i v) := by
      rw [byteGet_of_nonneg _ _ hd0 (by rw [List.length_set]; exact hd1)]
      exact List.getElem?_set_self hn
    rw [getitem_pos { nv with ba := nv.ba.set (i / 2).toNat (nibSetByte (nv.ba.get ⟨(i / 2).toNat, hn⟩) i v) } i hi0 hi]
    show nibGet
      (nv.ba.set (i / 2).toNat (nibSetByte (nv.ba.get ⟨(i / 2).toNat, hn⟩) i v)) i =
      .ok v.toNat
    rcases Int.emod_two_eq i with hp | hp
    · rw [nibGet_even _ _ _ hbg2 hp, nibSetByte_even _ _ _ hp, haux.1]
    · rw [nibGet_odd _ _ _ hbg2 hp, nibSetByte_odd _ _ _ hp, haux.2.2.1]
  · intro j hj0 hj1 hji
    have hjd0 : 0 ≤ j / 2 := by omega
    have hjd1 : j / 2 < (nv.ba.length : Int) := by omega
    have hjn : (j / 2).toNat < nv.ba.length := by omega
    have hbgj := byteGet_some nv.ba (j / 2) hjd0 hjd1 hjn
    rw [getitem_pos { nv with ba := nv.ba.set (i / 2).toNat (nibSetByte (nv.ba.get ⟨(i / 2).toNat, hn⟩) i v) } j hj0 hj1, getitem_pos nv j hj0 hj1]
    show nibGet
      (nv.ba.set (i / 2).toNat (nibSetByte (nv.ba.get ⟨(i / 2).toNat, hn⟩) i v)) j =
      nibGet nv.ba j
    by_cases hsame : j / 2 = i / 2
    · have hidx : (j / 2).toNat = (i / 2).toNat := by omega
      have hbj_eq : nv.ba.get ⟨(j / 2).toNat, hjn⟩ = nv.ba.get ⟨(i / 2).toNat, hn⟩ := by
        congr 1
        exact Fin.ext hidx
      have hbgj2 : byteGet
          (nv.ba.set (i / 2).toNat (nibSetByte (nv.ba.get ⟨(i / 2).toNat, hn⟩) i v))
          (j / 2) =
          some (nibSetByte (nv.ba.get ⟨(i / 2).toNat, hn⟩) i v) := by
        rw [byteGet_of_nonneg _ _ hjd0 (by rw [List.length_set]; exact hjd1), hidx]
        exact List.getElem?_set_self hn
      rcases Int.emod_two_eq i with hp | hp
      · have hjp : j % 2 = 1 := by omega
        rw [nibGet_odd _ _ _ hbgj2 hjp, nibGet_odd _ _ _ hbgj hjp,
          nibSetByte_even _ _ _ hp, hbj_eq, haux.2.1]
      · have hjp : j % 2 = 0 := by omega
        rw [nibGet_even _ _ _ hbgj2 hjp, nibGet_even _ _ _ hbgj hjp,
          nibSetByte_odd _ _ _ hp, hbj_eq, haux.2.2.2.1]
    · have hne : (i / 2).toNat ≠ (j / 2).toNat := by omega
      have hbgj2 : byteGet
          (nv.ba.set (i / 2).toNat (nibSetByte (nv.ba.get ⟨(i / 2).toNat, hn⟩) i v))
          (j / 2) = byteGet nv.ba (j / 2) := by
        rw [byteGet_of_nonneg _ _ hjd0 (by rw [List.length_set]; exact hjd1),
          byteGet_of_nonneg _ _ hjd0 hjd1]
        exact List.getElem?_set_ne hne
      unfold nibGet
      simp only [hbgj2]

/-- Witness for `nibble_set_frame`: `NibbleVector(5)`, `set(2, 10)`. -/
theorem nibble_set_frame_witness :
    ∃ nv2, (NibbleVector.init 5).setitem 2 10 = (nv2, .ok ()) ∧
      nv2.getitem 2 = .ok (10 : Int).toNat ∧
      ∀ j, 0 ≤ j → j < (NibbleVector.init 5).size → j ≠ 2 →
        nv2.getitem j = (NibbleVector.init 5).getitem j :=
  nibble_set_frame (NibbleVector.init 5) (init_WF 5) 2 10
    (by decide) (by decide) (by decide) (by decide)

/-- Claim C7: for an in-range index, `set(i, v)` raises `InvalidValue`
exactly when `v < 0` or `v ≥ 16`; and whenever `set` raises anything at
all, the container state is exactly what it was before the call. -/
theorem nibble_invalid_value_iff (nv : NibbleVector) (i : Int)
    (hi0 : -nv.size ≤ i) (hi : i < nv.size) :
    (∀ v, (nv.setitem i v).2 = .error .invalidValue ↔ (v < 0 ∨ 16 ≤ v)) ∧
    (∀ k w, (nv.setitem k w).2 ≠ .ok () → (nv.setitem k w).1 = nv) := by
  constructor
  · intro v
    unfold NibbleVector.setitem
    rw [if_neg (by omega)]
    by_cases h2 : v < 0 ∨ v ≥ 16
    · rw [if_pos h2]
      exact iff_of_true rfl (by omega)
    · rw [if_neg h2]
      refine iff_of_false (fun hc => ?_) (by omega)
      rcases hbg : byteGet nv.ba ((if i < 0 then nv.size + i else i) / 2) with _ | b
      · simp only [hbg] at hc
        exact PyError.noConfusion (Except.error.inj hc)
      · simp only [hbg] at hc
        rcases hbs : byteSet nv.ba ((if i < 0 then nv.size + i else i) / 2)
            (nibSetByte b (if i < 0 then nv.size + i else i) v) with _ | ba2
        · simp only [hbs] at hc
          exact PyError.noConfusion (Except.error.inj hc)
        · simp only [hbs] at hc
          exact Except.noConfusion hc
  · intro k w hne
    rcases setitem_state_or_ok nv k w with h | h
    · exact h
    · exact absurd h hne

/-- Witness for `nibble_invalid_value_iff`: `NibbleVector(5)`,
`set(3, 17)` raises `InvalidValue` and leaves the state untouched. -/
theorem nibble_invalid_value_iff_witness :
    ((NibbleVector.init 5).setitem 3 17).2 = .error .invalidValue ∧
    ((NibbleVector.init 5).setitem 3 17).1 = NibbleVector.init 5 :=
  ⟨((nibble_invalid_value_iff (NibbleVector.init 5) 3 (by decide) (by decide)).1
      17).mpr (by decide),
   (nibble_invalid_value_iff (NibbleVector.init 5) 3 (by decide) (by decide)).2
      3 17 (by decide)⟩

/-- Claim C8: `get` and `set` raise `OutOfRange` exactly when
`index ≥ length` or `index < -length`; a negative in-range index is
normalized to `length + index` before lookup, so in particular
`get(-1) = get(length - 1)` in every state with positive length. -/
theorem nibble_negative_index (nv : NibbleVector) (key : Int) :
    (nv.getitem key = .error .outOfRange ↔ (key ≥ nv.size ∨ key < -nv.size)) ∧
    (∀ v, (nv.setitem key v).2 = .error .outOfRange ↔
      (key ≥ nv.size ∨ key < -nv.size)) ∧
    (-nv.size ≤ key → key < 0 →
      nv.getitem key = nv.getitem (nv.size + key) ∧
      ∀ v, nv.setitem key v = nv.setitem (nv.size + key) v) ∧
    (0 < nv.size → nv.getitem (-1) = nv.getitem (nv.size - 1)) := by
  have hget : ∀ k : Int, -nv.size ≤ k → k < 0 →
      nv.getitem k = nv.getitem (nv.size + k) := by
    intro k hk0 hk1
    unfold NibbleVector.getitem
    rw [if_neg (by omega), if_pos (by omega), if_neg (by omega),
      if_neg (show ¬ nv.size + k < 0 by omega)]
  refine ⟨?_, ?_, ?_, ?_⟩
  · unfold NibbleVector.getitem
    by_cases h : key ≥ nv.size ∨ key < -nv.size
    · rw [if_pos h]
      exact iff_of_true rfl h
    · rw [if_neg h]
      refine iff_of_false (fun hc => ?_) h
      by_cases hneg : key < 0
      · rw [if_pos hneg] at hc
        unfold nibGet at hc
        rcases hbg : byteGet nv.ba ((nv.size + key) / 2) with _ | b <;>
          simp only [hbg] at hc
        · exact PyError.noConfusion (Except.error.inj hc)
        · exact Except.noConfusion hc
      · rw [if_neg hneg] at hc
        unfold nibGet at hc
        rcases hbg : byteGet nv.ba (key / 2) with _ | b <;>
          simp only [hbg] at hc
        · exact PyError.noConfusion (Except.error.inj hc)
        · exact Except.noConfusion hc
  · intro v
    unfold NibbleVector.setitem
    by_cases h : key ≥ nv.size ∨ key < -nv.size
    · rw [if_pos h]
      exact iff_of_true rfl h
    · rw [if_neg h]
      refine iff_of_false (fun hc => ?_) h
      by_cases h2 : v < 0 ∨ v ≥ 16
      · rw [if_pos h2] at hc
        exact PyError.noConfusion (Except.error.inj hc)
      · rw [if_neg h2] at hc
        rcases hbg : byteGet nv.ba ((if key < 0 then nv.size + key else key) / 2)
            with _ | b
        · simp only [hbg] at hc
          exact PyError.noConfusion (Except.error.inj hc)
        · simp only [hbg] at hc
          rcases hbs : byteSet nv.ba ((if key < 0 then nv.size + key else key) / 2)
              (nibSetByte b (if key < 0 then nv.size + key else key) v) with _ | ba2
          · simp only [hbs] at hc
            exact PyError.noConfusion (Except.error.inj hc)
          · simp only [hbs] at hc
            exact Except.noConfusion hc
  · intro hk0 hk1
    refine ⟨hget key hk0 hk1, ?_⟩
    intro v
    unfold NibbleVector.setitem
    rw [if_neg (show ¬ (key ≥ nv.size ∨ key < -nv.size) by omega),
      if_neg (show ¬ (nv.size + key ≥ nv.size ∨ nv.size + key < -nv.size) by omega)]
    by_cases h2 : v < 0 ∨ v ≥ 16
    · rw [if_pos h2, if_pos h2]
    · rw [if_neg h2, if_neg h2, if_pos (show key < 0 by omega),
        if_neg (show ¬ nv.size + key < 0 by omega)]
  · intro hpos
    have h := hget (-1) (by omega) (by omega)
    rw [h]
    have : nv.size + -1 = nv.size - 1 := by ring
    rw [this]

/-- Witness for `nibble_negative_index`: on the length-5 vector holding
1..5, `get(-1)` equals `get(size - 1)`. -/
theorem nibble_negative_index_witness :
    nvFive.getitem (-1) = nvFive.getitem (nvFive.size - 1) :=
  (nibble_negative_index nvFive (-1)).2.2.2 (by decide)

lemma containsB_true_iff (bv : BitVector) (e : Int) :
    bv.containsB e = true ↔ bv.contains e = .ok true := by
  rcases h : bv.contains e with er | b <;> simp [BitVector.containsB, h]

lemma range_map_int_sorted (n : Nat) :
    List.Pairwise (· < ·) ((List.range n).map (fun i : Nat => (i : Int))) := by
  rw [List.pairwise_map]
  exact (List.pairwise_lt_range n).imp fun h => by
    show (_ : Int) < _
    exact_mod_cast h

lemma mem_range_map_int (n : Nat) (e : Int) :
    e ∈ (List.range n).map (fun i : Nat => (i : Int)) ↔ 0 ≤ e ∧ e < (n : Int) := by
  rw [List.mem_map]
  constructor
  · rintro ⟨i, hir, rfl⟩
    have := List.mem_range.mp hir
    constructor
    · exact Int.ofNat_nonneg i
    · exact_mod_cast this
  · rintro ⟨h0, h1⟩
    refine ⟨e.toNat, List.mem_range.mpr (by omega), ?_⟩
    show (e.toNat : Int) = e
    omega

set_option maxRecDepth 10000 in
/-- Claim C9: `convert_to_list` returns the strictly ascending list of
exactly the elements of `[0, maxval)` whose bit is set; on the capacity-16
vector holding {0,3,6,11,2,8} it returns `[0, 2, 3, 6, 8, 11]`. -/
theorem bitvector_convert_to_list_spec :
    (∀ bv : BitVector, List.Sorted (· < ·) bv.convert_to_list ∧
      ∀ e : Int, e ∈ bv.convert_to_list ↔
        0 ≤ e ∧ e < bv.maxval ∧ bv.contains e = .ok true) ∧
    bvSixteen.convert_to_list = [0, 2, 3, 6, 8, 11] := by
  constructor
  · intro bv
    constructor
    · unfold BitVector.convert_to_list
      exact List.Pairwise.filter _ (range_map_int_sorted bv.maxval.toNat)
    · intro e
      unfold BitVector.convert_to_list
      rw [List.mem_filter, mem_range_map_int]
      constructor
      · rintro ⟨⟨h0, h1⟩, hcB⟩
        refine ⟨h0, by omega, (containsB_true_iff bv e).mp hcB⟩
      · rintro ⟨h0, h1, hcon⟩
        exact ⟨⟨h0, by omega⟩, (containsB_true_iff bv e).mpr hcon⟩
  · decide

/-- Claim C10: in every state reachable from construction by any sequence
of `set` calls, `get(i)` on a valid index returns a value below 16; on
the freshly constructed array it returns 0. -/
theorem nibble_reachable_get_in_range (n : Int) (ops : List (Int × Int)) (i : Int)
    (h0 : 0 ≤ i) (hi : i < n) :
    (∃ v, ((NibbleVector.init n).applySets ops).getitem i = .ok v ∧ v < 16) ∧
    (NibbleVector.init n).getitem i = .ok 0 := by
  have h := applySets_WF (NibbleVector.init n) (init_WF n) ops
  refine ⟨getitem_lt16 _ h.1 i h0 ?_, getitem_init_zero n i h0 hi⟩
  rw [h.2]
  exact hi

/-- Witness for `nibble_reachable_get_in_range`: length 5, two sets, read
index 2. -/
theorem nibble_reachable_get_in_range_witness :
    (∃ v, ((NibbleVector.init 5).applySets [(2, 10), (3, 14)]).getitem 2 =
      .ok v ∧ v < 16) ∧
    (NibbleVector.init 5).getitem 2 = .ok 0 :=
  nibble_reachable_get_in_range 5 [(2, 10), (3, 14)] 2 (by decide) (by decide)
